import Mathlib

/-!
Verification of the candidate-constraint and scoring engine of a
five-letter word-puzzle solver (`wordle_solver.py`).

Words are modelled as lists of characters (Python `str`), letter-frequency
tables as functions `Char → Nat` (Python `defaultdict(int)`), and the
global `VALID_ANSWER_SET` as an explicit list parameter, since the word
list files are loaded from disk and are not part of the analysed source.
-/

/-! ## Definitions: shallow embedding of the solver core -/

/-- A word, i.e. a Python string viewed as its sequence of characters. -/
abbrev Word := List Char

/-- Embedding of `GetLetterFrequencies(words)`: builds the letter-frequency
table by iterating over each reference word that belongs to the valid-answer
set and incrementing the counter of every letter occurrence.  The Python
`defaultdict(int)` is modelled as a total function `Char → Nat` and the
global `VALID_ANSWER_SET` as the explicit parameter `validAnswerSet`. -/
def GetLetterFrequencies (validAnswerSet : List Word) (words : List Word) : Char → Nat :=
  words.foldl
    (fun letter_freq word =>
      if word ∈ validAnswerSet then
        word.foldl (fun lf letter => fun c => if c = letter then lf c + 1 else lf c) letter_freq
      else
        letter_freq)
    (fun _ => 0)

/-- Embedding of `GetWordLetterFrequency(word, letter_freq)`: the sum of
`letter_freq[letter]` over the set of distinct letters of `word`
(Python `sum(letter_freq[letter] for letter in set(word))`). -/
def GetWordLetterFrequency (word : Word) (letter_freq : Char → Nat) : Nat :=
  (word.dedup.map letter_freq).sum

/-- Result of a Python function call that can fail.  `ok` is a normal
return value; `noSuggestion` models returning a falsy "no suggestion"
sentinel (as tested by `if not guess:` in the callers); `assertionError`
models an `assert` statement failing. -/
inductive PyResult (α : Type) where
  | ok : α → PyResult α
  | noSuggestion : PyResult α
  | assertionError : PyResult α
deriving DecidableEq

/-- Embedding of `GetWordWithHighestLetterFrequencies(words_for_freq, candidates)`:
asserts both inputs non-empty, then scans `candidates` keeping the first word
whose letter-set frequency strictly exceeds the running maximum (initially 0),
and asserts that some word was kept. -/
def GetWordWithHighestLetterFrequencies (validAnswerSet words_for_freq candidates : List Word) :
    PyResult Word :=
  if words_for_freq.isEmpty then PyResult.assertionError
  else if candidates.isEmpty then PyResult.assertionError
  else
    let letter_freq := GetLetterFrequencies validAnswerSet words_for_freq
    let best := candidates.foldl
      (fun acc word =>
        let freq := (word.dedup.map letter_freq).sum
        if acc.2 < freq then (some word, freq) else acc)
      ((none : Option Word), 0)
    match best.1 with
    | some best_word => PyResult.ok best_word
    | none => PyResult.assertionError

/-- The feedback symbol `GetHints` computes at one position: `M` when the
guessed letter equals the answer letter there, else `O` when the guessed
letter occurs anywhere in the answer, else `X`. -/
def hintAt (answer : Word) (letter answerLetter : Char) : Char :=
  if letter = answerLetter then 'M'
  else if letter ∈ answer then 'O'
  else 'X'

/-- Embedding of `GetHints(guess, answer)`: one feedback symbol per position
of the guess, formed by `hintAt` against the corresponding answer letter. -/
def GetHints (guess answer : Word) : Word :=
  (guess.zip answer).map (fun p => hintAt answer p.1 p.2)

/-- The per-position check of `MatchesHints`: `M` requires the word letter to
equal the guess letter, `O` requires it to differ while the guess letter occurs
somewhere in the word, anything else requires the guess letter to be absent
from the word. -/
def hintOk (word : Word) (wordLetter guessLetter hint : Char) : Bool :=
  if hint = 'M' then wordLetter = guessLetter
  else if hint = 'O' then wordLetter ≠ guessLetter ∧ guessLetter ∈ word
  else guessLetter ∉ word

/-- Recursive worker for `MatchesHints`: walks the word, guess and hint
strings in lockstep; an exhausted hint string accepts, a hint with no
corresponding word/guess letter (an index error in Python) rejects. -/
def MatchesHintsGo (word : Word) : Word → Word → Word → Bool
  | _, _, [] => true
  | w :: ws, g :: gs, h :: hs => hintOk word w g h && MatchesHintsGo word ws gs hs
  | _, _, _ => false

/-- Embedding of `MatchesHints(word, guess, hints)`: every position of the
hint string must satisfy its rule against the whole word. -/
def MatchesHints (word guess hints : Word) : Bool :=
  MatchesHintsGo word word guess hints

/-- Embedding of `FilterByHints(words, guess, hints)`: the list comprehension
keeping the words that match the hints. -/
def FilterByHints (words : List Word) (guess hints : Word) : List Word :=
  words.filter (fun word => MatchesHints word guess hints)

/-- One step of the loop in `GetWordWithHighestLetterFrequencies`: replace the
running best word exactly when the new word's score strictly exceeds the
running maximum. -/
def bestWordStep (lf : Char → Nat) (acc : Option Word × Nat) (word : Word) : Option Word × Nat :=
  if acc.2 < GetWordLetterFrequency word lf then (some word, GetWordLetterFrequency word lf)
  else acc

/-- Combined score of a pair: score of the Python concatenation `word1 + word2`. -/
def cfPair (lf : Char → Nat) (p : Word × Word) : Nat :=
  GetWordLetterFrequency (p.1 ++ p.2) lf

/-- Combined score of a triple: score of `candidate1 + candidate2 + candidate3`. -/
def cfTriple (lf : Char → Nat) (t : Word × Word × Word) : Nat :=
  GetWordLetterFrequency ((t.1 ++ t.2.1) ++ t.2.2) lf

/-- Inner loop of `GetWordPairsWithHighestLetterFrequencies`: iterates the
second pick over the remainder of the sorted list, breaking as soon as the
individual-score bound `word1_freq + word2_freq` drops below the running
maximum; otherwise a strictly better pair resets the best list and an equal
pair is appended. -/
def pairInner (lf : Char → Nat) (word1 : Word) (word1_freq : Nat) :
    List Word → Nat → List (Word × Word) → Nat × List (Word × Word)
  | [], max_freq, best_pairs => (max_freq, best_pairs)
  | word2 :: rest, max_freq, best_pairs =>
    if word1_freq + GetWordLetterFrequency word2 lf < max_freq then (max_freq, best_pairs)
    else if max_freq < GetWordLetterFrequency (word1 ++ word2) lf then
      pairInner lf word1 word1_freq rest
        (GetWordLetterFrequency (word1 ++ word2) lf) [(word1, word2)]
    else if GetWordLetterFrequency (word1 ++ word2) lf = max_freq then
      pairInner lf word1 word1_freq rest max_freq (best_pairs ++ [(word1, word2)])
    else pairInner lf word1 word1_freq rest max_freq best_pairs

/-- Outer loop of `GetWordPairsWithHighestLetterFrequencies`: iterates the
first pick over the sorted list, running the inner loop on the tail. -/
def pairOuter (lf : Char → Nat) :
    List Word → Nat → List (Word × Word) → Nat × List (Word × Word)
  | [], max_freq, best_pairs => (max_freq, best_pairs)
  | word1 :: rest, max_freq, best_pairs =>
    let r := pairInner lf word1 (GetWordLetterFrequency word1 lf) rest max_freq best_pairs
    pairOuter lf rest r.1 r.2

/-- Embedding of `GetWordPairsWithHighestLetterFrequencies(words)`: sorts the
candidates by individual score in descending order (a stable sort, like
Python's `sorted(..., reverse=True)`) and runs the pruned double loop with
`max_freq = 0` and an empty best list. -/
def GetWordPairsWithHighestLetterFrequencies (validAnswerSet words : List Word) :
    List (Word × Word) :=
  let letter_freq := GetLetterFrequencies validAnswerSet words
  let sorted_candidates := List.insertionSort
    (fun a b => GetWordLetterFrequency b letter_freq ≤ GetWordLetterFrequency a letter_freq) words
  (pairOuter letter_freq sorted_candidates 0 []).2

/-- Embedding of `NormalizeWordAsLetterSet(word)`: the sorted list of the
distinct letters of the word (Python `"".join(sorted(set(word)))`). -/
def NormalizeWordAsLetterSet (word : Word) : Word :=
  List.insertionSort (fun a b => a ≤ b) word.dedup

/-- One step of building the Python dict
`{NormalizeWordAsLetterSet(word): word for word in candidate_words}`:
overwrite the key's value with the current word, and record the key in the
insertion-ordered key list if it is new. -/
def buildStep (acc : (Word → Option Word) × List Word) (word : Word) :
    (Word → Option Word) × List Word :=
  ((fun k => if k = NormalizeWordAsLetterSet word then some word else acc.1 k),
   if (acc.1 (NormalizeWordAsLetterSet word)).isSome then acc.2
   else acc.2 ++ [NormalizeWordAsLetterSet word])

/-- The dict `candidate_to_word` (last value wins) together with its
insertion-ordered key list (Python dict key order). -/
def buildCandidateToWord (candidate_words : List Word) : (Word → Option Word) × List Word :=
  candidate_words.foldl buildStep ((fun _ => none), [])

/-- Innermost loop of the triple search (index `k`): breaks when the exact
pair score of the first two picks plus the third individual score cannot
reach the running maximum; otherwise ties append, strict improvements reset. -/
def tripleInner (lf : Char → Nat) (rep : Word → Word)
    (candidate1 candidate2 word1 word2 : Word) (candidate1_2_freq : Nat) :
    List Word → Nat → List (Word × Word × Word) → Nat × List (Word × Word × Word)
  | [], max_freq, best_triples => (max_freq, best_triples)
  | candidate3 :: rest, max_freq, best_triples =>
    if candidate1_2_freq + GetWordLetterFrequency candidate3 lf < max_freq then
      (max_freq, best_triples)
    else if max_freq ≤ GetWordLetterFrequency ((candidate1 ++ candidate2) ++ candidate3) lf then
      if max_freq < GetWordLetterFrequency ((candidate1 ++ candidate2) ++ candidate3) lf then
        tripleInner lf rep candidate1 candidate2 word1 word2 candidate1_2_freq rest
          (GetWordLetterFrequency ((candidate1 ++ candidate2) ++ candidate3) lf)
          [(word1, word2, rep candidate3)]
      else
        tripleInner lf rep candidate1 candidate2 word1 word2 candidate1_2_freq rest
          max_freq (best_triples ++ [(word1, word2, rep candidate3)])
    else
      tripleInner lf rep candidate1 candidate2 word1 word2 candidate1_2_freq rest
        max_freq best_triples

/-- Middle loop of the triple search (index `j`): breaks when even two copies
of the second individual score cannot bridge the gap to the running maximum;
otherwise computes the exact pair score and runs the innermost loop. -/
def tripleMiddle (lf : Char → Nat) (rep : Word → Word) (candidate1 word1 : Word)
    (candidate1_freq : Nat) :
    List Word → Nat → List (Word × Word × Word) → Nat × List (Word × Word × Word)
  | [], max_freq, best_triples => (max_freq, best_triples)
  | candidate2 :: rest, max_freq, best_triples =>
    if candidate1_freq + 2 * GetWordLetterFrequency candidate2 lf < max_freq then
      (max_freq, best_triples)
    else
      let r := tripleInner lf rep candidate1 candidate2 word1 (rep candidate2)
        (GetWordLetterFrequency (candidate1 ++ candidate2) lf) rest max_freq best_triples
      tripleMiddle lf rep candidate1 word1 candidate1_freq rest r.1 r.2

/-- Outer loop of the triple search (index `i`). -/
def tripleOuter (lf : Char → Nat) (rep : Word → Word) :
    List Word → Nat → List (Word × Word × Word) → Nat × List (Word × Word × Word)
  | [], max_freq, best_triples => (max_freq, best_triples)
  | candidate1 :: rest, max_freq, best_triples =>
    let r := tripleMiddle lf rep candidate1 (rep candidate1)
      (GetWordLetterFrequency candidate1 lf) rest max_freq best_triples
    tripleOuter lf rep rest r.1 r.2

/-- Embedding of `GetWordTriplesWithHighestLetterFrequencies(words)`:
canonicalizes every word to its letter set, deduplicates on that key keeping
the last representative (Python dict comprehension), sorts the canonical keys
by score descending and runs the pruned triple loop, returning triples of
representative words. -/
def GetWordTriplesWithHighestLetterFrequencies (validAnswerSet words : List Word) :
    List (Word × Word × Word) :=
  let letter_freq := GetLetterFrequencies validAnswerSet words
  let dict := buildCandidateToWord words
  let candidate_to_word := fun k => (dict.1 k).getD k
  let sorted_candidates := List.insertionSort
    (fun a b => GetWordLetterFrequency b letter_freq ≤ GetWordLetterFrequency a letter_freq) dict.2
  (tripleOuter letter_freq candidate_to_word sorted_candidates 0 []).2

/-- All pairs of list elements taken at strictly increasing positions — the
unpruned enumeration `for i ...: for j in range(i+1, ...)`. -/
def allPairs {α : Type} : List α → List (α × α)
  | [] => []
  | x :: rest => rest.map (fun y => (x, y)) ++ allPairs rest

/-- All triples of list elements taken at strictly increasing positions. -/
def allTriples {α : Type} : List α → List (α × α × α)
  | [] => []
  | x :: rest => (allPairs rest).map (fun p => (x, p.1, p.2)) ++ allTriples rest

/-- Maximum of `cf` over a list, folded from the initial value `m` exactly as
the loops fold `max_freq`. -/
def maxCfFrom {α : Type} (cf : α → Nat) (m : Nat) (l : List α) : Nat :=
  l.foldl (fun acc a => max acc (cf a)) m

/-- Modelled from the spec: the unpruned brute-force pair search, enumerating
all pairs and keeping exactly those whose combined distinct-letter score
attains the maximum. -/
def bruteForceBestPairs (lf : Char → Nat) (words : List Word) : List (Word × Word) :=
  (allPairs words).filter
    (fun p => decide (cfPair lf p = maxCfFrom (cfPair lf) 0 (allPairs words)))

/-- Modelled from the spec: the unpruned brute-force triple search. -/
def bruteForceBestTriples (lf : Char → Nat) (words : List Word) : List (Word × Word × Word) :=
  (allTriples words).filter
    (fun t => decide (cfTriple lf t = maxCfFrom (cfTriple lf) 0 (allTriples words)))

/-- The two components of a pair as a list, used to compare pairs as
unordered sets of words. -/
def pairList (p : Word × Word) : List Word := [p.1, p.2]

/-- The three components of a triple as a list. -/
def tripleList (t : Word × Word × Word) : List Word := [t.1, t.2.1, t.2.2]

/-- Membership of a pair in a pair list up to the order of the two words. -/
def pairMem (p : Word × Word) (l : List (Word × Word)) : Prop :=
  ∃ q ∈ l, List.Perm (pairList q) (pairList p)

/-- Membership of a triple in a triple list up to the order of the three
words. -/
def tripleMem (t : Word × Word × Word) (l : List (Word × Word × Word)) : Prop :=
  ∃ s ∈ l, List.Perm (tripleList s) (tripleList t)

/-- The unpruned best-combination loop: scan items in order, reset the best
list on a strict improvement of `cf`, append on a tie, skip otherwise,
recording each kept item through `out`. -/
def processAll {α β : Type} (cf : α → Nat) (out : α → β) :
    List α → Nat → List β → Nat × List β
  | [], max_freq, best => (max_freq, best)
  | a :: rest, max_freq, best =>
    if max_freq < cf a then processAll cf out rest (cf a) [out a]
    else if cf a = max_freq then processAll cf out rest max_freq (best ++ [out a])
    else processAll cf out rest max_freq best

/-- The union of the letter sets of a list of words. -/
def wordsUnion : List Word → Finset Char
  | [] => ∅
  | w :: rest => w.toFinset ∪ wordsUnion rest

/-- The representative map of the anagram dict: a key is sent to the last word
with that letter set (and, for keys outside the dict, to itself). -/
def tripleRep (words : List Word) : Word → Word :=
  fun k => ((buildCandidateToWord words).1 k).getD k

/-- The score-sorted canonical keys over which the triple search runs. -/
def sortedKeys (lf : Char → Nat) (words : List Word) : List Word :=
  List.insertionSort (fun a c => GetWordLetterFrequency c lf ≤ GetWordLetterFrequency a lf)
    (buildCandidateToWord words).2

instance (p : Word × Word) (l : List (Word × Word)) : Decidable (pairMem p l) :=
  inferInstanceAs (Decidable (∃ q ∈ l, List.Perm (pairList q) (pairList p)))

instance (t : Word × Word × Word) (l : List (Word × Word × Word)) : Decidable (tripleMem t l) :=
  inferInstanceAs (Decidable (∃ s ∈ l, List.Perm (tripleList s) (tripleList t)))

/-! ## Theorems -/

theorem getHints_length (guess answer : Word) (h : guess.length = answer.length) :
    (GetHints guess answer).length = guess.length := by
  simp [GetHints, List.length_zip, h]

theorem getHints_getD (guess answer : Word) (i : Nat) (hg : i < guess.length)
    (ha : i < answer.length) :
    (GetHints guess answer).getD i '?' = hintAt answer (guess.getD i '?') (answer.getD i '?') := by
  have hlen : i < (GetHints guess answer).length := by
    simp only [GetHints, List.length_map, List.length_zip]
    omega
  rw [List.getD_eq_getElem?_getD, List.getElem?_eq_getElem hlen,
    List.getD_eq_getElem?_getD, List.getElem?_eq_getElem hg,
    List.getD_eq_getElem?_getD, List.getElem?_eq_getElem ha]
  simp [GetHints, List.getElem_zip]

theorem hintOk_hintAt (full : Word) (w g : Char) : hintOk full w g (hintAt full g w) = true := by
  unfold hintOk hintAt
  by_cases he : g = w
  · simp [he]
  · by_cases hm : g ∈ full
    · simp [he, hm, Ne.symm he]
    · simp [he, hm]

theorem matchesHintsGo_getHints (full : Word) :
    ∀ (gs ws : Word), MatchesHintsGo full ws gs ((gs.zip ws).map fun p => hintAt full p.1 p.2) = true
  | [], ws => by cases ws <;> rfl
  | g :: gs, [] => rfl
  | g :: gs, w :: ws => by
    simp only [List.zip_cons_cons, List.map_cons, MatchesHintsGo, Bool.and_eq_true]
    exact ⟨hintOk_hintAt full w g, matchesHintsGo_getHints full gs ws⟩

theorem matchesHints_getHints (guess answer : Word) :
    MatchesHints answer guess (GetHints guess answer) = true :=
  matchesHintsGo_getHints answer guess answer

/-- Claim C2: for every guess and answer of equal length, `GetHints` emits at
each position `i` the symbol `M` iff `guess[i] = answer[i]`, otherwise `O` iff
`guess[i]` occurs anywhere in the answer (membership, not positional),
otherwise `X`. -/
theorem claim_C2_feedback_rule (guess answer : Word) (h : guess.length = answer.length) :
    (GetHints guess answer).length = guess.length ∧
    ∀ i : Nat, i < guess.length →
      ((GetHints guess answer).getD i '?' = 'M' ↔ guess.getD i '?' = answer.getD i '?') ∧
      ((GetHints guess answer).getD i '?' = 'O' ↔
        guess.getD i '?' ≠ answer.getD i '?' ∧ guess.getD i '?' ∈ answer) ∧
      ((GetHints guess answer).getD i '?' = 'X' ↔
        guess.getD i '?' ≠ answer.getD i '?' ∧ guess.getD i '?' ∉ answer) := by
  refine ⟨getHints_length guess answer h, fun i hi => ?_⟩
  have ha : i < answer.length := h ▸ hi
  rw [getHints_getD guess answer i hi ha]
  unfold hintAt
  by_cases he : guess.getD i '?' = answer.getD i '?'
  · rw [if_pos he]
    exact ⟨⟨fun _ => he, fun _ => rfl⟩,
      ⟨fun hc => absurd hc (by decide), fun hc => absurd he hc.1⟩,
      ⟨fun hc => absurd hc (by decide), fun hc => absurd he hc.1⟩⟩
  · by_cases hm : guess.getD i '?' ∈ answer
    · rw [if_neg he, if_pos hm]
      exact ⟨⟨fun hc => absurd hc (by decide), fun hc => absurd hc he⟩,
        ⟨fun _ => ⟨he, hm⟩, fun _ => rfl⟩,
        ⟨fun hc => absurd hc (by decide), fun hc => absurd hm hc.2⟩⟩
    · rw [if_neg he, if_neg hm]
      exact ⟨⟨fun hc => absurd hc (by decide), fun hc => absurd hc he⟩,
        ⟨fun hc => absurd hc (by decide), fun hc => absurd hc.2 hm⟩,
        ⟨fun _ => ⟨he, hm⟩, fun _ => rfl⟩⟩

/-- Witness for C2 at guess `AB`, answer `BB`: the first position is a
present-displaced `O`, the second a match `M`. -/
theorem claim_C2_feedback_rule_witness :
    (['A','B'] : Word).length = (['B','B'] : Word).length ∧
    ((GetHints ['A','B'] ['B','B']).getD 0 '?' = 'O' ↔
      (['A','B'] : Word).getD 0 '?' ≠ (['B','B'] : Word).getD 0 '?' ∧
      (['A','B'] : Word).getD 0 '?' ∈ (['B','B'] : Word)) :=
  ⟨by decide, ((claim_C2_feedback_rule ['A','B'] ['B','B'] (by decide)).2 0 (by decide)).2.1⟩

/-- Claim C4 counterexample: `GetHints('CRANE','TRACE')` is not the pattern
`OXMMM` stated by the claim (position 2 is an exact match `M`, since both
words have `R` there). -/
theorem claim_C4_counterexample :
    GetHints ['C','R','A','N','E'] ['T','R','A','C','E'] ≠ ['O','X','M','M','M'] := by
  decide

/-- Claim C4 as amended: `GetHints('CRANE','TRACE')` returns `OMMXM`, and
filtering the candidate set `{CRANE, TRACE, SLATE, PROXY}` by guess `CRANE`
with that pattern excludes `CRANE` and keeps exactly `TRACE`. -/
theorem claim_C4_concrete_scenario :
    GetHints ['C','R','A','N','E'] ['T','R','A','C','E'] = ['O','M','M','X','M'] ∧
    FilterByHints [['C','R','A','N','E'], ['T','R','A','C','E'], ['S','L','A','T','E'],
        ['P','R','O','X','Y']] ['C','R','A','N','E'] ['O','M','M','X','M']
      = [['T','R','A','C','E']] ∧
    ['C','R','A','N','E'] ∉ FilterByHints [['C','R','A','N','E'], ['T','R','A','C','E'],
        ['S','L','A','T','E'], ['P','R','O','X','Y']] ['C','R','A','N','E'] ['O','M','M','X','M'] ∧
    ['T','R','A','C','E'] ∈ FilterByHints [['C','R','A','N','E'], ['T','R','A','C','E'],
        ['S','L','A','T','E'], ['P','R','O','X','Y']] ['C','R','A','N','E'] ['O','M','M','X','M'] := by
  refine ⟨by decide, by decide, by decide, by decide⟩

/-- Claim C5: `FilterByHints` returns exactly the ordered sub-sequence of the
input whose elements satisfy `MatchesHints`: it is a sublist of the input
(hence order-preserving), a word is in the output iff it is in the input and
matches, and the output never exceeds the input in length. -/
theorem claim_C5_filter_soundness (S : List Word) (guess pattern : Word) :
    (∀ w ∈ FilterByHints S guess pattern, MatchesHints w guess pattern = true) ∧
    List.Sublist (FilterByHints S guess pattern) S ∧
    (∀ w, w ∈ FilterByHints S guess pattern ↔ w ∈ S ∧ MatchesHints w guess pattern = true) ∧
    (FilterByHints S guess pattern).length ≤ S.length := by
  refine ⟨?_, List.filter_sublist S, ?_, List.length_filter_le _ S⟩
  · intro w hw
    exact (List.mem_filter.mp hw).2
  · intro w
    exact List.mem_filter

/-- Claim C7: a true answer always matches the hints computed from it:
`MatchesHints(answer, guess, GetHints(guess, answer))` holds for 5-letter
words, so `FilterByHints` never removes the answer from a candidate list. -/
theorem claim_C7_answer_never_filtered (guess answer : Word)
    (hg : guess.length = 5) (ha : answer.length = 5) :
    MatchesHints answer guess (GetHints guess answer) = true ∧
    ∀ S : List Word, answer ∈ S → answer ∈ FilterByHints S guess (GetHints guess answer) := by
  refine ⟨matchesHints_getHints guess answer, fun S hS => ?_⟩
  exact List.mem_filter.mpr ⟨hS, matchesHints_getHints guess answer⟩

/-- Witness for C7 at guess `CRANE`, answer `TRACE`: the answer matches its
own feedback and survives filtering of a list containing it. -/
theorem claim_C7_answer_never_filtered_witness :
    MatchesHints ['T','R','A','C','E'] ['C','R','A','N','E']
      (GetHints ['C','R','A','N','E'] ['T','R','A','C','E']) = true ∧
    ['T','R','A','C','E'] ∈ FilterByHints [['T','R','A','C','E']] ['C','R','A','N','E']
      (GetHints ['C','R','A','N','E'] ['T','R','A','C','E']) :=
  ⟨(claim_C7_answer_never_filtered ['C','R','A','N','E'] ['T','R','A','C','E']
      (by decide) (by decide)).1,
   (claim_C7_answer_never_filtered ['C','R','A','N','E'] ['T','R','A','C','E']
      (by decide) (by decide)).2 [['T','R','A','C','E']] (by decide)⟩

/-- Claim C10: `FilterByHints` is idempotent: filtering an already-filtered
list by the same guess and pattern returns the identical list. -/
theorem claim_C10_filter_idempotent (S : List Word) (guess pattern : Word) :
    FilterByHints (FilterByHints S guess pattern) guess pattern
      = FilterByHints S guess pattern := by
  simp [FilterByHints, List.filter_filter]

theorem letterBump_count (w : Word) :
    ∀ (lf : Char → Nat) (c : Char),
      (w.foldl (fun lf letter => fun c => if c = letter then lf c + 1 else lf c) lf) c
        = lf c + w.count c := by
  induction w with
  | nil => intro lf c; simp
  | cons x rest ih =>
    intro lf c
    rw [List.foldl_cons, ih, List.count_cons]
    by_cases hc : c = x
    · simp [hc]
      omega
    · have hx : ¬ (x = c) := fun h => hc h.symm
      simp [hc, hx]

theorem getLetterFrequencies_foldl (va : List Word) :
    ∀ (words : List Word) (lf0 : Char → Nat) (c : Char),
      (words.foldl
        (fun letter_freq word =>
          if word ∈ va then
            word.foldl (fun lf letter => fun c => if c = letter then lf c + 1 else lf c) letter_freq
          else
            letter_freq) lf0) c
        = lf0 c + (words.map (fun w => if w ∈ va then w.count c else 0)).sum := by
  intro words
  induction words with
  | nil => intro lf0 c; simp
  | cons w rest ih =>
    intro lf0 c
    rw [List.foldl_cons, ih, List.map_cons, List.sum_cons]
    by_cases hw : w ∈ va
    · rw [if_pos hw, if_pos hw, letterBump_count]
      omega
    · rw [if_neg hw, if_neg hw]
      omega

theorem getLetterFrequencies_count (va words : List Word) (c : Char) :
    GetLetterFrequencies va words c
      = (words.map (fun w => if w ∈ va then w.count c else 0)).sum := by
  rw [GetLetterFrequencies, getLetterFrequencies_foldl]
  omega

theorem toFinset_dedup_list (w : Word) : w.dedup.toFinset = w.toFinset := by
  ext c
  simp [List.mem_toFinset, List.mem_dedup]

theorem getWordLetterFrequency_eq_sum (w : Word) (lf : Char → Nat) :
    GetWordLetterFrequency w lf = ∑ c ∈ w.toFinset, lf c := by
  rw [GetWordLetterFrequency, ← toFinset_dedup_list, List.sum_toFinset lf (List.nodup_dedup w)]

theorem getWordLetterFrequency_congr (a b : Word) (lf : Char → Nat)
    (h : a.toFinset = b.toFinset) :
    GetWordLetterFrequency a lf = GetWordLetterFrequency b lf := by
  rw [getWordLetterFrequency_eq_sum, getWordLetterFrequency_eq_sum, h]

theorem getWordLetterFrequency_append (a b : Word) (lf : Char → Nat) :
    GetWordLetterFrequency (a ++ b) lf + ∑ c ∈ a.toFinset ∩ b.toFinset, lf c
      = GetWordLetterFrequency a lf + GetWordLetterFrequency b lf := by
  rw [getWordLetterFrequency_eq_sum, getWordLetterFrequency_eq_sum,
    getWordLetterFrequency_eq_sum, List.toFinset_append]
  exact Finset.sum_union_inter

theorem getWordLetterFrequency_append_le (a b : Word) (lf : Char → Nat) :
    GetWordLetterFrequency (a ++ b) lf
      ≤ GetWordLetterFrequency a lf + GetWordLetterFrequency b lf := by
  have h := getWordLetterFrequency_append a b lf
  omega

/-- Claim C1 counterexample: for the reference list containing only `ABBEY`
(also a valid answer), the letter `B` gets count 2, although only one
reference word contains `B`; the table is occurrence-based, not set-based. -/
theorem claim_C1_counterexample :
    GetLetterFrequencies [['A','B','B','E','Y']] [['A','B','B','E','Y']] 'B' = 2 ∧
    (List.filter (fun w => decide ('B' ∈ w)) [(['A','B','B','E','Y'] : Word)]).length = 1 := by
  decide

/-- Claim C1 as amended: `GetLetterFrequencies` is occurrence-based: each
letter's count equals the total number of occurrences of that letter summed
over the reference words that belong to the valid-answer set (a repeated
letter in one word is counted once per occurrence, and words outside the
valid-answer set contribute nothing). -/
theorem claim_C1_frequency_table_occurrence_based (validAnswerSet words : List Word) (c : Char) :
    GetLetterFrequencies validAnswerSet words c
      = (words.map (fun w => if w ∈ validAnswerSet then w.count c else 0)).sum :=
  getLetterFrequencies_count validAnswerSet words c

/-- Claim C6 counterexample: with the all-zero frequency table produced by an
empty valid-answer set, `A` and `A` share the letter `A`, yet the combined
score equals the sum of the individual scores, so "equality iff no shared
letters" fails. -/
theorem claim_C6_counterexample :
    ¬ (GetWordLetterFrequency (['A'] ++ ['A']) (GetLetterFrequencies [] [['A']])
          = GetWordLetterFrequency ['A'] (GetLetterFrequencies [] [['A']])
            + GetWordLetterFrequency ['A'] (GetLetterFrequencies [] [['A']])
        ↔ ∀ c : Char, c ∈ (['A'] : Word) → c ∉ (['A'] : Word)) := by
  intro hiff
  exact (hiff.mp (by decide) 'A' (by decide)) (by decide)

/-- Claim C6 as amended: for any two words and any table, the combined score
of the concatenation is at most the sum of the individual scores, with
equality iff every letter shared by the two words has frequency zero in the
table (in particular, equality holds whenever the words share no letters). -/
theorem claim_C6_combination_score_subadditive (A B : Word) (T : Char → Nat) :
    GetWordLetterFrequency (A ++ B) T
        ≤ GetWordLetterFrequency A T + GetWordLetterFrequency B T ∧
    (GetWordLetterFrequency (A ++ B) T
        = GetWordLetterFrequency A T + GetWordLetterFrequency B T ↔
      ∀ c, c ∈ A → c ∈ B → T c = 0) := by
  have h := getWordLetterFrequency_append A B T
  refine ⟨by omega, ?_, ?_⟩
  · intro he
    have hz : ∑ c ∈ A.toFinset ∩ B.toFinset, T c = 0 := by omega
    intro c hA hB
    exact (Finset.sum_eq_zero_iff.mp hz) c
      (Finset.mem_inter.mpr ⟨List.mem_toFinset.mpr hA, List.mem_toFinset.mpr hB⟩)
  · intro hz
    have hzz : ∑ c ∈ A.toFinset ∩ B.toFinset, T c = 0 := by
      apply Finset.sum_eq_zero
      intro c hc
      have hm := Finset.mem_inter.mp hc
      exact hz c (List.mem_toFinset.mp hm.1) (List.mem_toFinset.mp hm.2)
    omega

theorem getWordWithHighest_spec (va wff cands : List Word) :
    GetWordWithHighestLetterFrequencies va wff cands =
      if wff.isEmpty then PyResult.assertionError
      else if cands.isEmpty then PyResult.assertionError
      else
        match (cands.foldl (bestWordStep (GetLetterFrequencies va wff))
            ((none : Option Word), 0)).1 with
        | some w => PyResult.ok w
        | none => PyResult.assertionError := rfl

theorem bestFold_no_update (lf : Char → Nat) :
    ∀ (l : List Word) (b : Option Word) (m : Nat),
      (∀ w ∈ l, GetWordLetterFrequency w lf ≤ m) →
      l.foldl (bestWordStep lf) (b, m) = (b, m) := by
  intro l
  induction l with
  | nil => intro b m _; rfl
  | cons x rest ih =>
    intro b m h
    have hx : GetWordLetterFrequency x lf ≤ m := h x (by simp)
    have hstep : bestWordStep lf (b, m) x = (b, m) := by
      unfold bestWordStep
      rw [if_neg (by simp; omega)]
    rw [List.foldl_cons, hstep]
    exact ih b m (fun w hw => h w (by simp [hw]))

theorem bestFold_update (lf : Char → Nat) :
    ∀ (l : List Word) (b : Option Word) (m : Nat),
      (∃ w ∈ l, m < GetWordLetterFrequency w lf) →
      ∃ w l1 l2, l = l1 ++ w :: l2 ∧
        l.foldl (bestWordStep lf) (b, m) = (some w, GetWordLetterFrequency w lf) ∧
        m < GetWordLetterFrequency w lf ∧
        (∀ v ∈ l, GetWordLetterFrequency v lf ≤ GetWordLetterFrequency w lf) ∧
        (∀ v ∈ l1, GetWordLetterFrequency v lf < GetWordLetterFrequency w lf) := by
  intro l
  induction l with
  | nil => intro b m h; simp at h
  | cons x rest ih =>
    intro b m h
    by_cases hx : m < GetWordLetterFrequency x lf
    · have hstep : bestWordStep lf (b, m) x = (some x, GetWordLetterFrequency x lf) := by
        unfold bestWordStep
        rw [if_pos (by simpa using hx)]
      by_cases hrest : ∃ w ∈ rest, GetWordLetterFrequency x lf < GetWordLetterFrequency w lf
      · obtain ⟨w, l1, l2, heq, hfold, hlt, hmax, hpre⟩ :=
          ih (some x) (GetWordLetterFrequency x lf) hrest
        refine ⟨w, x :: l1, l2, by rw [heq]; rfl, ?_, by omega, ?_, ?_⟩
        · rw [List.foldl_cons, hstep, hfold]
        · intro v hv
          rcases List.mem_cons.mp hv with h1 | h2
          · subst h1; omega
          · exact hmax v h2
        · intro v hv
          rcases List.mem_cons.mp hv with h1 | h2
          · subst h1; exact hlt
          · exact hpre v h2
      · push_neg at hrest
        refine ⟨x, [], rest, rfl, ?_, hx, ?_, by intro v hv; simp at hv⟩
        · rw [List.foldl_cons, hstep, bestFold_no_update lf rest _ _ hrest]
        · intro v hv
          rcases List.mem_cons.mp hv with h1 | h2
          · subst h1; exact le_refl _
          · exact hrest v h2
    · have hstep : bestWordStep lf (b, m) x = (b, m) := by
        unfold bestWordStep
        rw [if_neg (by simpa using hx)]
      have hrest : ∃ w ∈ rest, m < GetWordLetterFrequency w lf := by
        obtain ⟨w, hw, hgt⟩ := h
        rcases List.mem_cons.mp hw with h1 | h2
        · subst h1; omega
        · exact ⟨w, h2, hgt⟩
      obtain ⟨w, l1, l2, heq, hfold, hlt, hmax, hpre⟩ := ih b m hrest
      refine ⟨w, x :: l1, l2, by rw [heq]; rfl, ?_, hlt, ?_, ?_⟩
      · rw [List.foldl_cons, hstep, hfold]
      · intro v hv
        rcases List.mem_cons.mp hv with h1 | h2
        · subst h1; omega
        · exact hmax v h2
      · intro v hv
        rcases List.mem_cons.mp hv with h1 | h2
        · subst h1; omega
        · exact hpre v h2

/-- Claim C8 counterexample: on an empty candidate list the function fails its
`assert candidates` precondition (an `AssertionError`), it does not return the
"no suggestion" sentinel. -/
theorem claim_C8_counterexample :
    GetWordWithHighestLetterFrequencies [['A']] [['A']] [] = PyResult.assertionError ∧
    GetWordWithHighestLetterFrequencies [['A']] [['A']] [] ≠ PyResult.noSuggestion := by
  decide

/-- Claim C8 as amended: for every valid-answer set and reference list, an
empty candidate list makes `GetWordWithHighestLetterFrequencies` fail a
precondition assertion (a hard failure raised before any scanning), rather
than reporting a soft "no suggestion" sentinel; the falsy-guess check exists
only in the callers. -/
theorem claim_C8_empty_candidates_assert (va wff : List Word) :
    GetWordWithHighestLetterFrequencies va wff [] = PyResult.assertionError := by
  cases wff <;> rfl

/-- Claim C9 counterexample: for the non-empty candidate list `[QQQQQ...]`
(here the one-letter word `Q`) with a frequency table in which every candidate
scores zero, the function raises an assertion failure instead of returning the
argmax (the sole candidate). -/
theorem claim_C9_counterexample :
    GetWordWithHighestLetterFrequencies [] [['Q']] [['Q']] = PyResult.assertionError ∧
    GetWordWithHighestLetterFrequencies [] [['Q']] [['Q']] ≠ PyResult.ok ['Q'] := by
  decide

/-- Claim C9 as amended: for a non-empty reference list and a candidate list
containing at least one word of positive score, the function returns the first
candidate achieving the maximum score (stable argmax); when every candidate
scores zero it fails the `best_word is not None` assertion instead. -/
theorem claim_C9_stable_argmax (va wff cands : List Word) (hwff : wff ≠ [])
    (hpos : ∃ w ∈ cands, 0 < GetWordLetterFrequency w (GetLetterFrequencies va wff)) :
    ∃ w l1 l2, cands = l1 ++ w :: l2 ∧
      GetWordWithHighestLetterFrequencies va wff cands = PyResult.ok w ∧
      (∀ v ∈ cands, GetWordLetterFrequency v (GetLetterFrequencies va wff)
        ≤ GetWordLetterFrequency w (GetLetterFrequencies va wff)) ∧
      (∀ v ∈ l1, GetWordLetterFrequency v (GetLetterFrequencies va wff)
        < GetWordLetterFrequency w (GetLetterFrequencies va wff)) := by
  obtain ⟨w, l1, l2, heq, hfold, _hlt, hmax, hpre⟩ :=
    bestFold_update (GetLetterFrequencies va wff) cands none 0 hpos
  refine ⟨w, l1, l2, heq, ?_, hmax, hpre⟩
  rw [getWordWithHighest_spec]
  have hwe : wff.isEmpty = false := by
    cases wff with
    | nil => exact absurd rfl hwff
    | cons a l => rfl
  have hce : cands.isEmpty = false := by
    rw [heq]
    cases l1 <;> rfl
  rw [hwe, hce, hfold]
  rfl

/-- Witness for C9: with valid answers `{A}`, reference list `{A}` and
candidates `[B, A]`, the word `A` scores 1, `B` scores 0, and the function
returns `A`, the first maximal candidate. -/
theorem claim_C9_stable_argmax_witness :
    (([['A']] : List Word) ≠ []) ∧
    (∃ w ∈ ([['B'], ['A']] : List Word),
      0 < GetWordLetterFrequency w (GetLetterFrequencies [['A']] [['A']])) ∧
    (∃ w l1 l2, ([['B'], ['A']] : List Word) = l1 ++ w :: l2 ∧
      GetWordWithHighestLetterFrequencies [['A']] [['A']] [['B'], ['A']] = PyResult.ok w ∧
      (∀ v ∈ ([['B'], ['A']] : List Word),
        GetWordLetterFrequency v (GetLetterFrequencies [['A']] [['A']])
          ≤ GetWordLetterFrequency w (GetLetterFrequencies [['A']] [['A']])) ∧
      (∀ v ∈ l1, GetWordLetterFrequency v (GetLetterFrequencies [['A']] [['A']])
          < GetWordLetterFrequency w (GetLetterFrequencies [['A']] [['A']]))) :=
  ⟨by decide, by decide,
    claim_C9_stable_argmax [['A']] [['A']] [['B'], ['A']] (by decide) (by decide)⟩

theorem le_maxCfFrom {α : Type} (cf : α → Nat) :
    ∀ (l : List α) (m : Nat), m ≤ maxCfFrom cf m l := by
  intro l
  induction l with
  | nil => intro m; exact le_refl m
  | cons a rest ih =>
    intro m
    have h1 : maxCfFrom cf m (a :: rest) = maxCfFrom cf (max m (cf a)) rest := rfl
    rw [h1]
    exact le_trans (le_max_left m (cf a)) (ih (max m (cf a)))

theorem cf_le_maxCfFrom {α : Type} (cf : α → Nat) :
    ∀ (l : List α) (m : Nat) (a : α), a ∈ l → cf a ≤ maxCfFrom cf m l := by
  intro l
  induction l with
  | nil => intro m a ha; simp at ha
  | cons x rest ih =>
    intro m a ha
    have h1 : maxCfFrom cf m (x :: rest) = maxCfFrom cf (max m (cf x)) rest := rfl
    rw [h1]
    rcases List.mem_cons.mp ha with h2 | h2
    · subst h2
      exact le_trans (le_max_right m (cf a)) (le_maxCfFrom cf rest (max m (cf a)))
    · exact ih (max m (cf x)) a h2

theorem maxCfFrom_exists {α : Type} (cf : α → Nat) :
    ∀ (l : List α) (m : Nat), maxCfFrom cf m l = m ∨ ∃ a ∈ l, maxCfFrom cf m l = cf a := by
  intro l
  induction l with
  | nil => intro m; exact Or.inl rfl
  | cons x rest ih =>
    intro m
    have h1 : maxCfFrom cf m (x :: rest) = maxCfFrom cf (max m (cf x)) rest := rfl
    rcases ih (max m (cf x)) with h2 | ⟨a, ha, h2⟩
    · by_cases hx : m < cf x
      · refine Or.inr ⟨x, by simp, ?_⟩
        rw [h1, h2]
        omega
      · refine Or.inl ?_
        rw [h1, h2]
        omega
    · exact Or.inr ⟨a, by simp [ha], by rw [h1, h2]⟩

theorem maxCfFrom_congr {α β : Type} (cf1 : α → Nat) (cf2 : β → Nat)
    (l1 : List α) (l2 : List β)
    (h12 : ∀ a ∈ l1, ∃ b ∈ l2, cf2 b = cf1 a)
    (h21 : ∀ b ∈ l2, ∃ a ∈ l1, cf1 a = cf2 b) :
    maxCfFrom cf1 0 l1 = maxCfFrom cf2 0 l2 := by
  apply Nat.le_antisymm
  · rcases maxCfFrom_exists cf1 l1 0 with h | ⟨a, ha, h⟩
    · rw [h]; exact Nat.zero_le _
    · obtain ⟨b, hb, hcf⟩ := h12 a ha
      rw [h, ← hcf]
      exact cf_le_maxCfFrom cf2 l2 0 b hb
  · rcases maxCfFrom_exists cf2 l2 0 with h | ⟨b, hb, h⟩
    · rw [h]; exact Nat.zero_le _
    · obtain ⟨a, ha, hcf⟩ := h21 b hb
      rw [h, ← hcf]
      exact cf_le_maxCfFrom cf1 l1 0 a ha

theorem processAll_spec {α β : Type} (cf : α → Nat) (out : α → β) :
    ∀ (l : List α) (m : Nat) (b : List β),
      processAll cf out l m b =
        (maxCfFrom cf m l,
          if m < maxCfFrom cf m l then
            (l.filter (fun a => decide (cf a = maxCfFrom cf m l))).map out
          else b ++ (l.filter (fun a => decide (cf a = m))).map out) := by
  intro l
  induction l with
  | nil =>
    intro m b
    simp [processAll, maxCfFrom]
  | cons a rest ih =>
    intro m b
    have hM : maxCfFrom cf m (a :: rest) = maxCfFrom cf (max m (cf a)) rest := rfl
    by_cases h1 : m < cf a
    · have hstep : processAll cf out (a :: rest) m b = processAll cf out rest (cf a) [out a] := by
        simp only [processAll]
        rw [if_pos h1]
      rw [hstep, ih, hM]
      have hmax : max m (cf a) = cf a := by omega
      rw [hmax]
      have hle : cf a ≤ maxCfFrom cf (cf a) rest := le_maxCfFrom cf rest (cf a)
      have hcond : m < maxCfFrom cf (cf a) rest := by omega
      rw [if_pos hcond]
      by_cases h2 : cf a < maxCfFrom cf (cf a) rest
      · rw [if_pos h2]
        have hne : decide (cf a = maxCfFrom cf (cf a) rest) = false := by
          simp only [decide_eq_false_iff_not]
          omega
        rw [List.filter_cons, hne]
        simp
      · have heq : cf a = maxCfFrom cf (cf a) rest := by omega
        rw [if_neg h2]
        have hT : decide (cf a = maxCfFrom cf (cf a) rest) = true := by
          simp only [decide_eq_true_eq]
          exact heq
        rw [List.filter_cons, hT, ← heq]
        simp
    · by_cases h2 : cf a = m
      · have hstep : processAll cf out (a :: rest) m b
            = processAll cf out rest m (b ++ [out a]) := by
          simp only [processAll]
          rw [if_neg h1, if_pos h2]
        rw [hstep, ih, hM]
        have hmax : max m (cf a) = m := by omega
        rw [hmax]
        by_cases h3 : m < maxCfFrom cf m rest
        · rw [if_pos h3, if_pos h3]
          have hne : decide (cf a = maxCfFrom cf m rest) = false := by
            simp only [decide_eq_false_iff_not]
            omega
          rw [List.filter_cons, hne]
          simp
        · rw [if_neg h3, if_neg h3]
          have hT : decide (cf a = m) = true := by
            simp only [decide_eq_true_eq]
            exact h2
          rw [List.filter_cons, hT]
          simp
      · have hstep : processAll cf out (a :: rest) m b = processAll cf out rest m b := by
          simp only [processAll]
          rw [if_neg h1, if_neg h2]
        rw [hstep, ih, hM]
        have hmax : max m (cf a) = m := by omega
        rw [hmax]
        by_cases h3 : m < maxCfFrom cf m rest
        · rw [if_pos h3, if_pos h3]
          have hne : decide (cf a = maxCfFrom cf m rest) = false := by
            simp only [decide_eq_false_iff_not]
            have := le_maxCfFrom cf rest m
            omega
          rw [List.filter_cons, hne]
          simp
        · rw [if_neg h3, if_neg h3]
          have hne : decide (cf a = m) = false := by
            simp only [decide_eq_false_iff_not]
            omega
          rw [List.filter_cons, hne]
          simp

theorem processAll_result {α β : Type} (cf : α → Nat) (out : α → β) (l : List α) :
    (processAll cf out l 0 []).2
      = (l.filter (fun a => decide (cf a = maxCfFrom cf 0 l))).map out := by
  rw [processAll_spec]
  by_cases h : 0 < maxCfFrom cf 0 l
  · rw [if_pos h]
  · rw [if_neg h]
    have h0 : maxCfFrom cf 0 l = 0 := by omega
    rw [h0]
    simp

theorem processAll_no_update {α β : Type} (cf : α → Nat) (out : α → β) :
    ∀ (l : List α) (m : Nat) (b : List β),
      (∀ a ∈ l, cf a < m) → processAll cf out l m b = (m, b) := by
  intro l
  induction l with
  | nil => intro m b _; rfl
  | cons a rest ih =>
    intro m b h
    have ha : cf a < m := h a (by simp)
    have hstep : processAll cf out (a :: rest) m b = processAll cf out rest m b := by
      simp only [processAll]
      rw [if_neg (by omega), if_neg (by omega)]
    rw [hstep]
    exact ih m b (fun x hx => h x (by simp [hx]))

theorem processAll_append {α β : Type} (cf : α → Nat) (out : α → β) :
    ∀ (xs ys : List α) (m : Nat) (b : List β),
      processAll cf out (xs ++ ys) m b
        = processAll cf out ys (processAll cf out xs m b).1 (processAll cf out xs m b).2 := by
  intro xs
  induction xs with
  | nil => intro ys m b; rfl
  | cons a rest ih =>
    intro ys m b
    by_cases h1 : m < cf a
    · have hstep : ∀ t : List α, processAll cf out (a :: t) m b
          = processAll cf out t (cf a) [out a] := by
        intro t
        simp only [processAll]
        rw [if_pos h1]
      rw [List.cons_append, hstep, hstep, ih]
    · by_cases h2 : cf a = m
      · have hstep : ∀ t : List α, processAll cf out (a :: t) m b
            = processAll cf out t m (b ++ [out a]) := by
          intro t
          simp only [processAll]
          rw [if_neg h1, if_pos h2]
        rw [List.cons_append, hstep, hstep, ih]
      · have hstep : ∀ t : List α, processAll cf out (a :: t) m b
            = processAll cf out t m b := by
          intro t
          simp only [processAll]
          rw [if_neg h1, if_neg h2]
        rw [List.cons_append, hstep, hstep, ih]

theorem processAll_congr_out {α β : Type} (cf : α → Nat) (out1 out2 : α → β) :
    ∀ (l : List α) (m : Nat) (b : List β),
      (∀ a ∈ l, out1 a = out2 a) →
      processAll cf out1 l m b = processAll cf out2 l m b := by
  intro l
  induction l with
  | nil => intro m b _; rfl
  | cons a rest ih =>
    intro m b h
    have ha : out1 a = out2 a := h a (by simp)
    have hrest : ∀ x ∈ rest, out1 x = out2 x := fun x hx => h x (by simp [hx])
    simp only [processAll]
    by_cases h1 : m < cf a
    · rw [if_pos h1, if_pos h1, ha]
      exact ih (cf a) [out2 a] hrest
    · by_cases h2 : cf a = m
      · rw [if_neg h1, if_pos h2, if_neg h1, if_pos h2, ha]
        exact ih m (b ++ [out2 a]) hrest
      · rw [if_neg h1, if_neg h2, if_neg h1, if_neg h2]
        exact ih m b hrest

theorem insertionSort_sorted_desc (lf : Char → Nat) (l : List Word) :
    List.Pairwise (fun a c => GetWordLetterFrequency c lf ≤ GetWordLetterFrequency a lf)
      (List.insertionSort
        (fun a c => GetWordLetterFrequency c lf ≤ GetWordLetterFrequency a lf) l) := by
  haveI : IsTotal Word (fun a c => GetWordLetterFrequency c lf ≤ GetWordLetterFrequency a lf) :=
    ⟨fun a c => Nat.le_total _ _⟩
  haveI : IsTrans Word (fun a c => GetWordLetterFrequency c lf ≤ GetWordLetterFrequency a lf) :=
    ⟨fun a b c hab hbc => Nat.le_trans hbc hab⟩
  exact List.sorted_insertionSort _ l

theorem pairInner_eq (lf : Char → Nat) (word1 : Word) :
    ∀ (rest : List Word) (m : Nat) (b : List (Word × Word)),
      List.Pairwise (fun a c => GetWordLetterFrequency c lf ≤ GetWordLetterFrequency a lf) rest →
      pairInner lf word1 (GetWordLetterFrequency word1 lf) rest m b
        = processAll (cfPair lf) id (rest.map (fun word2 => (word1, word2))) m b := by
  intro rest
  induction rest with
  | nil => intro m b _; rfl
  | cons w2 rest ih =>
    intro m b hp
    obtain ⟨hall, hrest⟩ := List.pairwise_cons.mp hp
    by_cases hbr : GetWordLetterFrequency word1 lf + GetWordLetterFrequency w2 lf < m
    · have hL : pairInner lf word1 (GetWordLetterFrequency word1 lf) (w2 :: rest) m b
          = (m, b) := by
        simp only [pairInner]
        rw [if_pos hbr]
      rw [hL, List.map_cons, processAll_no_update]
      intro p hpmem
      rcases List.mem_cons.mp hpmem with h | h
      · subst h
        have hle := getWordLetterFrequency_append_le word1 w2 lf
        have hcf : cfPair lf (word1, w2) = GetWordLetterFrequency (word1 ++ w2) lf := rfl
        omega
      · obtain ⟨x, hx, hxe⟩ := List.mem_map.mp h
        have hle := getWordLetterFrequency_append_le word1 x lf
        have hx2 : GetWordLetterFrequency x lf ≤ GetWordLetterFrequency w2 lf := hall x hx
        have hcf : cfPair lf p = GetWordLetterFrequency (word1 ++ x) lf := by
          rw [← hxe]
          rfl
        omega
    · simp only [pairInner, List.map_cons, processAll]
      rw [if_neg hbr]
      have hcf : cfPair lf (word1, w2) = GetWordLetterFrequency (word1 ++ w2) lf := rfl
      by_cases h1 : m < GetWordLetterFrequency (word1 ++ w2) lf
      · rw [if_pos h1, if_pos (show m < cfPair lf (word1, w2) from h1)]
        exact ih (GetWordLetterFrequency (word1 ++ w2) lf) [(word1, w2)] hrest
      · rw [if_neg h1, if_neg (show ¬ m < cfPair lf (word1, w2) from h1)]
        by_cases h2 : GetWordLetterFrequency (word1 ++ w2) lf = m
        · rw [if_pos h2, if_pos (show cfPair lf (word1, w2) = m from h2)]
          exact ih m (b ++ [(word1, w2)]) hrest
        · rw [if_neg h2, if_neg (show ¬ cfPair lf (word1, w2) = m from h2)]
          exact ih m b hrest

theorem pairOuter_eq (lf : Char → Nat) :
    ∀ (l : List Word) (m : Nat) (b : List (Word × Word)),
      List.Pairwise (fun a c => GetWordLetterFrequency c lf ≤ GetWordLetterFrequency a lf) l →
      pairOuter lf l m b = processAll (cfPair lf) id (allPairs l) m b := by
  intro l
  induction l with
  | nil => intro m b _; rfl
  | cons w1 rest ih =>
    intro m b hp
    obtain ⟨hall, hrest⟩ := List.pairwise_cons.mp hp
    have h1 : pairOuter lf (w1 :: rest) m b
        = pairOuter lf rest
            (pairInner lf w1 (GetWordLetterFrequency w1 lf) rest m b).1
            (pairInner lf w1 (GetWordLetterFrequency w1 lf) rest m b).2 := rfl
    rw [h1, pairInner_eq lf w1 rest m b hrest, ih _ _ hrest]
    have h2 : allPairs (w1 :: rest) = rest.map (fun y => (w1, y)) ++ allPairs rest := rfl
    rw [h2, processAll_append]

theorem getWordPairs_eq_filter (validAnswerSet words : List Word) :
    GetWordPairsWithHighestLetterFrequencies validAnswerSet words
      = ((allPairs (List.insertionSort
            (fun a c => GetWordLetterFrequency c (GetLetterFrequencies validAnswerSet words)
              ≤ GetWordLetterFrequency a (GetLetterFrequencies validAnswerSet words)) words)).filter
          (fun p => decide (cfPair (GetLetterFrequencies validAnswerSet words) p
            = maxCfFrom (cfPair (GetLetterFrequencies validAnswerSet words)) 0
                (allPairs (List.insertionSort
                  (fun a c => GetWordLetterFrequency c (GetLetterFrequencies validAnswerSet words)
                    ≤ GetWordLetterFrequency a (GetLetterFrequencies validAnswerSet words))
                  words))))) := by
  have h1 : GetWordPairsWithHighestLetterFrequencies validAnswerSet words
      = (pairOuter (GetLetterFrequencies validAnswerSet words)
          (List.insertionSort
            (fun a c => GetWordLetterFrequency c (GetLetterFrequencies validAnswerSet words)
              ≤ GetWordLetterFrequency a (GetLetterFrequencies validAnswerSet words)) words)
          0 []).2 := rfl
  rw [h1, pairOuter_eq _ _ _ _ (insertionSort_sorted_desc _ words), processAll_result,
    List.map_id]

theorem mem_allPairs_iff (p : Word × Word) :
    ∀ (l : List Word), p ∈ allPairs l ↔ List.Sublist (pairList p) l := by
  intro l
  induction l with
  | nil => simp [allPairs, pairList]
  | cons x rest ih =>
    have h2 : allPairs (x :: rest) = rest.map (fun y => (x, y)) ++ allPairs rest := rfl
    constructor
    · intro h
      rw [h2] at h
      rcases List.mem_append.mp h with h3 | h3
      · obtain ⟨y, hy, hxy⟩ := List.mem_map.mp h3
        rw [← hxy]
        exact List.Sublist.cons₂ x (List.singleton_sublist.mpr hy)
      · exact List.Sublist.cons x (ih.mp h3)
    · intro h
      rw [h2]
      rcases List.sublist_cons_iff.mp h with h3 | ⟨r, hr, hrs⟩
      · exact List.mem_append.mpr (Or.inr (ih.mpr h3))
      · have hr2 : [p.1, p.2] = x :: r := hr
        have h1 : p.1 = x := by injection hr2
        have h4 : [p.2] = r := by
          injection hr2 with h5 h6
        apply List.mem_append.mpr
        apply Or.inl
        apply List.mem_map.mpr
        refine ⟨p.2, List.singleton_sublist.mp (h4 ▸ hrs), ?_⟩
        rw [← h1]

theorem mem_allTriples_iff (t : Word × Word × Word) :
    ∀ (l : List Word), t ∈ allTriples l ↔ List.Sublist (tripleList t) l := by
  intro l
  induction l with
  | nil => simp [allTriples, tripleList]
  | cons x rest ih =>
    have h2 : allTriples (x :: rest)
        = (allPairs rest).map (fun p => (x, p.1, p.2)) ++ allTriples rest := rfl
    constructor
    · intro h
      rw [h2] at h
      rcases List.mem_append.mp h with h3 | h3
      · obtain ⟨q, hq, hxy⟩ := List.mem_map.mp h3
        rw [← hxy]
        exact List.Sublist.cons₂ x ((mem_allPairs_iff q rest).mp hq)
      · exact List.Sublist.cons x (ih.mp h3)
    · intro h
      rw [h2]
      rcases List.sublist_cons_iff.mp h with h3 | ⟨r, hr, hrs⟩
      · exact List.mem_append.mpr (Or.inr (ih.mpr h3))
      · have hr2 : [t.1, t.2.1, t.2.2] = x :: r := hr
        have h1 : t.1 = x := by injection hr2
        have h4 : [t.2.1, t.2.2] = r := by
          injection hr2 with h5 h6
        have hsub : List.Sublist (pairList (t.2.1, t.2.2)) rest := by
          have h6 : pairList (t.2.1, t.2.2) = [t.2.1, t.2.2] := rfl
          rw [h6, h4]
          exact hrs
        apply List.mem_append.mpr
        apply Or.inl
        apply List.mem_map.mpr
        refine ⟨(t.2.1, t.2.2), (mem_allPairs_iff _ rest).mpr hsub, ?_⟩
        rw [← h1]

theorem exists_mem_allPairs_iff_subperm (p : Word × Word) (l : List Word) :
    (∃ q ∈ allPairs l, List.Perm (pairList q) (pairList p))
      ↔ List.Subperm (pairList p) l := by
  constructor
  · rintro ⟨q, hq, hperm⟩
    exact ⟨pairList q, hperm, (mem_allPairs_iff q l).mp hq⟩
  · rintro ⟨l2, hperm, hsub⟩
    have hlen : l2.length = 2 := by
      rw [hperm.length_eq]
      rfl
    obtain ⟨a, c, rfl⟩ := List.length_eq_two.mp hlen
    exact ⟨(a, c), (mem_allPairs_iff (a, c) l).mpr hsub, hperm⟩

theorem exists_mem_allTriples_iff_subperm (t : Word × Word × Word) (l : List Word) :
    (∃ s ∈ allTriples l, List.Perm (tripleList s) (tripleList t))
      ↔ List.Subperm (tripleList t) l := by
  constructor
  · rintro ⟨s, hs, hperm⟩
    exact ⟨tripleList s, hperm, (mem_allTriples_iff s l).mp hs⟩
  · rintro ⟨l2, hperm, hsub⟩
    have hlen : l2.length = 3 := by
      rw [hperm.length_eq]
      rfl
    obtain ⟨a, c, d, rfl⟩ := List.length_eq_three.mp hlen
    exact ⟨(a, c, d), (mem_allTriples_iff (a, c, d) l).mpr hsub, hperm⟩

theorem wordsUnion_perm {L1 L2 : List Word} (h : List.Perm L1 L2) :
    wordsUnion L1 = wordsUnion L2 := by
  induction h with
  | nil => rfl
  | cons x _ ih =>
    simp only [wordsUnion]
    rw [ih]
  | swap x y l => exact Finset.union_left_comm _ _ _
  | trans _ _ ih1 ih2 => exact ih1.trans ih2

theorem wordsUnion_map_congr (f : Word → Word) :
    ∀ (L : List Word), (∀ w ∈ L, (f w).toFinset = w.toFinset) →
      wordsUnion (L.map f) = wordsUnion L := by
  intro L
  induction L with
  | nil => intro _; rfl
  | cons x rest ih =>
    intro h
    simp only [List.map_cons, wordsUnion]
    rw [h x (by simp), ih (fun w hw => h w (by simp [hw]))]

theorem cfPair_eq_wordsUnion (lf : Char → Nat) (p : Word × Word) :
    cfPair lf p = ∑ c ∈ wordsUnion (pairList p), lf c := by
  rw [cfPair, getWordLetterFrequency_eq_sum, List.toFinset_append]
  simp [wordsUnion, pairList]

theorem cfTriple_eq_wordsUnion (lf : Char → Nat) (t : Word × Word × Word) :
    cfTriple lf t = ∑ c ∈ wordsUnion (tripleList t), lf c := by
  rw [cfTriple, getWordLetterFrequency_eq_sum, List.toFinset_append, List.toFinset_append]
  simp [wordsUnion, tripleList, Finset.union_assoc]

theorem cfPair_perm (lf : Char → Nat) {q p : Word × Word}
    (h : List.Perm (pairList q) (pairList p)) : cfPair lf q = cfPair lf p := by
  rw [cfPair_eq_wordsUnion, cfPair_eq_wordsUnion, wordsUnion_perm h]

theorem cfTriple_perm (lf : Char → Nat) {s t : Word × Word × Word}
    (h : List.Perm (tripleList s) (tripleList t)) : cfTriple lf s = cfTriple lf t := by
  rw [cfTriple_eq_wordsUnion, cfTriple_eq_wordsUnion, wordsUnion_perm h]

theorem pairMem_filter_iff (lf : Char → Nat) (l : List Word) (M : Nat) (p : Word × Word) :
    pairMem p ((allPairs l).filter (fun q => decide (cfPair lf q = M)))
      ↔ List.Subperm (pairList p) l ∧ cfPair lf p = M := by
  constructor
  · rintro ⟨q, hq, hperm⟩
    obtain ⟨hqmem, hqcf⟩ := List.mem_filter.mp hq
    have hcfq : cfPair lf q = M := of_decide_eq_true hqcf
    refine ⟨⟨pairList q, hperm, (mem_allPairs_iff q l).mp hqmem⟩, ?_⟩
    rw [← cfPair_perm lf hperm]
    exact hcfq
  · rintro ⟨hsub, hcf⟩
    obtain ⟨q, hqmem, hperm⟩ := (exists_mem_allPairs_iff_subperm p l).mpr hsub
    refine ⟨q, List.mem_filter.mpr ⟨hqmem, ?_⟩, hperm⟩
    exact decide_eq_true (by rw [cfPair_perm lf hperm]; exact hcf)

theorem pair_max_perm (lf : Char → Nat) (l1 l2 : List Word) (hperm : List.Perm l1 l2) :
    maxCfFrom (cfPair lf) 0 (allPairs l1) = maxCfFrom (cfPair lf) 0 (allPairs l2) := by
  apply maxCfFrom_congr
  · intro a ha
    have hsub : List.Subperm (pairList a) l2 :=
      (hperm.subperm_left).mp ((mem_allPairs_iff a l1).mp ha).subperm
    obtain ⟨b, hb, hpermb⟩ := (exists_mem_allPairs_iff_subperm a l2).mpr hsub
    exact ⟨b, hb, cfPair_perm lf hpermb⟩
  · intro b hb
    have hsub : List.Subperm (pairList b) l1 :=
      (hperm.symm.subperm_left).mp ((mem_allPairs_iff b l2).mp hb).subperm
    obtain ⟨a, ha, hperma⟩ := (exists_mem_allPairs_iff_subperm b l1).mpr hsub
    exact ⟨a, ha, cfPair_perm lf hperma⟩

theorem triple_max_perm (lf : Char → Nat) (l1 l2 : List Word) (hperm : List.Perm l1 l2) :
    maxCfFrom (cfTriple lf) 0 (allTriples l1) = maxCfFrom (cfTriple lf) 0 (allTriples l2) := by
  apply maxCfFrom_congr
  · intro a ha
    have hsub : List.Subperm (tripleList a) l2 :=
      (hperm.subperm_left).mp ((mem_allTriples_iff a l1).mp ha).subperm
    obtain ⟨b, hb, hpermb⟩ := (exists_mem_allTriples_iff_subperm a l2).mpr hsub
    exact ⟨b, hb, cfTriple_perm lf hpermb⟩
  · intro b hb
    have hsub : List.Subperm (tripleList b) l1 :=
      (hperm.symm.subperm_left).mp ((mem_allTriples_iff b l2).mp hb).subperm
    obtain ⟨a, ha, hperma⟩ := (exists_mem_allTriples_iff_subperm b l1).mpr hsub
    exact ⟨a, ha, cfTriple_perm lf hperma⟩

theorem pairMem_pruned_iff_brute (validAnswerSet words : List Word) (p : Word × Word) :
    pairMem p (GetWordPairsWithHighestLetterFrequencies validAnswerSet words)
      ↔ pairMem p (bruteForceBestPairs (GetLetterFrequencies validAnswerSet words) words) := by
  have hperm : List.Perm
      (List.insertionSort
        (fun a c => GetWordLetterFrequency c (GetLetterFrequencies validAnswerSet words)
          ≤ GetWordLetterFrequency a (GetLetterFrequencies validAnswerSet words)) words)
      words := List.perm_insertionSort _ words
  rw [getWordPairs_eq_filter, bruteForceBestPairs, pairMem_filter_iff, pairMem_filter_iff,
    pair_max_perm _ _ _ hperm, hperm.subperm_left]

theorem pruned_pairs_score (validAnswerSet words : List Word) :
    ∀ q ∈ GetWordPairsWithHighestLetterFrequencies validAnswerSet words,
      cfPair (GetLetterFrequencies validAnswerSet words) q
        = maxCfFrom (cfPair (GetLetterFrequencies validAnswerSet words)) 0 (allPairs words) := by
  intro q hq
  rw [getWordPairs_eq_filter] at hq
  obtain ⟨hmem, hcf⟩ := List.mem_filter.mp hq
  rw [of_decide_eq_true hcf]
  exact pair_max_perm _ _ _ (List.perm_insertionSort _ words)

theorem tripleInner_eq (lf : Char → Nat) (rep : Word → Word) (c1 c2 w1 w2 : Word) :
    ∀ (rest : List Word) (m : Nat) (b : List (Word × Word × Word)),
      List.Pairwise (fun a c => GetWordLetterFrequency c lf ≤ GetWordLetterFrequency a lf) rest →
      tripleInner lf rep c1 c2 w1 w2 (GetWordLetterFrequency (c1 ++ c2) lf) rest m b
        = processAll (cfTriple lf) (fun t => (w1, w2, rep t.2.2))
            (rest.map (fun c3 => (c1, c2, c3))) m b := by
  intro rest
  induction rest with
  | nil => intro m b _; rfl
  | cons c3 rest ih =>
    intro m b hp
    obtain ⟨hall, hrest⟩ := List.pairwise_cons.mp hp
    by_cases hbr : GetWordLetterFrequency (c1 ++ c2) lf + GetWordLetterFrequency c3 lf < m
    · have hL : tripleInner lf rep c1 c2 w1 w2 (GetWordLetterFrequency (c1 ++ c2) lf)
          (c3 :: rest) m b = (m, b) := by
        simp only [tripleInner]
        rw [if_pos hbr]
      rw [hL, List.map_cons, processAll_no_update]
      intro t htmem
      rcases List.mem_cons.mp htmem with h | h
      · subst h
        have hle := getWordLetterFrequency_append_le (c1 ++ c2) c3 lf
        have hcf : cfTriple lf (c1, c2, c3)
            = GetWordLetterFrequency ((c1 ++ c2) ++ c3) lf := rfl
        omega
      · obtain ⟨x, hx, hxe⟩ := List.mem_map.mp h
        have hle := getWordLetterFrequency_append_le (c1 ++ c2) x lf
        have hx2 : GetWordLetterFrequency x lf ≤ GetWordLetterFrequency c3 lf := hall x hx
        have hcf : cfTriple lf t = GetWordLetterFrequency ((c1 ++ c2) ++ x) lf := by
          rw [← hxe]
          rfl
        omega
    · simp only [tripleInner, List.map_cons, processAll]
      rw [if_neg hbr]
      by_cases h1 : m < GetWordLetterFrequency ((c1 ++ c2) ++ c3) lf
      · rw [if_pos (le_of_lt h1), if_pos h1,
          if_pos (show m < cfTriple lf (c1, c2, c3) from h1)]
        exact ih (GetWordLetterFrequency ((c1 ++ c2) ++ c3) lf) [(w1, w2, rep c3)] hrest
      · by_cases h2 : GetWordLetterFrequency ((c1 ++ c2) ++ c3) lf = m
        · rw [if_pos (le_of_eq h2.symm), if_neg h1,
            if_neg (show ¬ m < cfTriple lf (c1, c2, c3) from h1),
            if_pos (show cfTriple lf (c1, c2, c3) = m from h2)]
          exact ih m (b ++ [(w1, w2, rep c3)]) hrest
        · rw [if_neg (show ¬ m ≤ GetWordLetterFrequency ((c1 ++ c2) ++ c3) lf by omega),
            if_neg (show ¬ m < cfTriple lf (c1, c2, c3) from h1),
            if_neg (show ¬ cfTriple lf (c1, c2, c3) = m from h2)]
          exact ih m b hrest

theorem tripleMiddle_eq (lf : Char → Nat) (rep : Word → Word) (c1 w1 : Word) :
    ∀ (rest : List Word) (m : Nat) (b : List (Word × Word × Word)),
      List.Pairwise (fun a c => GetWordLetterFrequency c lf ≤ GetWordLetterFrequency a lf) rest →
      tripleMiddle lf rep c1 w1 (GetWordLetterFrequency c1 lf) rest m b
        = processAll (cfTriple lf) (fun t => (w1, rep t.2.1, rep t.2.2))
            ((allPairs rest).map (fun p => (c1, p.1, p.2))) m b := by
  intro rest
  induction rest with
  | nil => intro m b _; rfl
  | cons c2 rest ih =>
    intro m b hp
    obtain ⟨hall, hrest⟩ := List.pairwise_cons.mp hp
    have hAP : (allPairs (c2 :: rest)).map (fun p => (c1, p.1, p.2))
        = rest.map (fun c3 => (c1, c2, c3))
          ++ (allPairs rest).map (fun p => (c1, p.1, p.2)) := by
      have h0 : allPairs (c2 :: rest) = rest.map (fun y => (c2, y)) ++ allPairs rest := rfl
      rw [h0, List.map_append, List.map_map]
      rfl
    by_cases hbr : GetWordLetterFrequency c1 lf + 2 * GetWordLetterFrequency c2 lf < m
    · have hL : tripleMiddle lf rep c1 w1 (GetWordLetterFrequency c1 lf) (c2 :: rest) m b
          = (m, b) := by
        simp only [tripleMiddle]
        rw [if_pos hbr]
      rw [hL, processAll_no_update]
      intro t htmem
      obtain ⟨q, hq, hqe⟩ := List.mem_map.mp htmem
      have hsubq : List.Sublist (pairList q) (c2 :: rest) := (mem_allPairs_iff q _).mp hq
      have hq1 : q.1 ∈ c2 :: rest := hsubq.subset (by simp [pairList])
      have hq2 : q.2 ∈ c2 :: rest := hsubq.subset (by simp [pairList])
      have hb1 : GetWordLetterFrequency q.1 lf ≤ GetWordLetterFrequency c2 lf := by
        rcases List.mem_cons.mp hq1 with h | h
        · rw [h]
        · exact hall _ h
      have hb2 : GetWordLetterFrequency q.2 lf ≤ GetWordLetterFrequency c2 lf := by
        rcases List.mem_cons.mp hq2 with h | h
        · rw [h]
        · exact hall _ h
      have hle1 := getWordLetterFrequency_append_le (c1 ++ q.1) q.2 lf
      have hle2 := getWordLetterFrequency_append_le c1 q.1 lf
      have hcf : cfTriple lf t = GetWordLetterFrequency ((c1 ++ q.1) ++ q.2) lf := by
        rw [← hqe]
        rfl
      omega
    · have hL : tripleMiddle lf rep c1 w1 (GetWordLetterFrequency c1 lf) (c2 :: rest) m b
          = tripleMiddle lf rep c1 w1 (GetWordLetterFrequency c1 lf) rest
              (tripleInner lf rep c1 c2 w1 (rep c2)
                (GetWordLetterFrequency (c1 ++ c2) lf) rest m b).1
              (tripleInner lf rep c1 c2 w1 (rep c2)
                (GetWordLetterFrequency (c1 ++ c2) lf) rest m b).2 := by
        simp only [tripleMiddle]
        rw [if_neg hbr]
      have hout : ∀ a ∈ rest.map (fun c3 => (c1, c2, c3)),
          (fun t : Word × Word × Word => (w1, rep c2, rep t.2.2)) a
            = (fun t : Word × Word × Word => (w1, rep t.2.1, rep t.2.2)) a := by
        intro a ha
        obtain ⟨c3, hc3, he⟩ := List.mem_map.mp ha
        rw [← he]
      rw [hL, tripleInner_eq lf rep c1 c2 w1 (rep c2) rest m b hrest,
        processAll_congr_out (cfTriple lf) _ _ _ m b hout, ih _ _ hrest, hAP,
        processAll_append]

theorem tripleOuter_eq (lf : Char → Nat) (rep : Word → Word) :
    ∀ (l : List Word) (m : Nat) (b : List (Word × Word × Word)),
      List.Pairwise (fun a c => GetWordLetterFrequency c lf ≤ GetWordLetterFrequency a lf) l →
      tripleOuter lf rep l m b
        = processAll (cfTriple lf) (fun t => (rep t.1, rep t.2.1, rep t.2.2))
            (allTriples l) m b := by
  intro l
  induction l with
  | nil => intro m b _; rfl
  | cons c1 rest ih =>
    intro m b hp
    obtain ⟨hall, hrest⟩ := List.pairwise_cons.mp hp
    have hL : tripleOuter lf rep (c1 :: rest) m b
        = tripleOuter lf rep rest
            (tripleMiddle lf rep c1 (rep c1) (GetWordLetterFrequency c1 lf) rest m b).1
            (tripleMiddle lf rep c1 (rep c1) (GetWordLetterFrequency c1 lf) rest m b).2 := rfl
    have hout : ∀ a ∈ (allPairs rest).map (fun p => (c1, p.1, p.2)),
        (fun t : Word × Word × Word => (rep c1, rep t.2.1, rep t.2.2)) a
          = (fun t : Word × Word × Word => (rep t.1, rep t.2.1, rep t.2.2)) a := by
      intro a ha
      obtain ⟨q, hq, he⟩ := List.mem_map.mp ha
      rw [← he]
    have hAT : allTriples (c1 :: rest)
        = (allPairs rest).map (fun p => (c1, p.1, p.2)) ++ allTriples rest := rfl
    rw [hL, tripleMiddle_eq lf rep c1 (rep c1) rest m b hrest,
      processAll_congr_out (cfTriple lf) _ _ _ m b hout, ih _ _ hrest, hAT,
      processAll_append]

theorem getWordTriples_eq_filter (validAnswerSet words : List Word) :
    GetWordTriplesWithHighestLetterFrequencies validAnswerSet words
      = ((allTriples (sortedKeys (GetLetterFrequencies validAnswerSet words) words)).filter
          (fun t => decide (cfTriple (GetLetterFrequencies validAnswerSet words) t
            = maxCfFrom (cfTriple (GetLetterFrequencies validAnswerSet words)) 0
                (allTriples (sortedKeys (GetLetterFrequencies validAnswerSet words) words))))).map
          (fun t => (tripleRep words t.1, tripleRep words t.2.1, tripleRep words t.2.2)) := by
  have h1 : GetWordTriplesWithHighestLetterFrequencies validAnswerSet words
      = (tripleOuter (GetLetterFrequencies validAnswerSet words) (tripleRep words)
          (sortedKeys (GetLetterFrequencies validAnswerSet words) words) 0 []).2 := rfl
  have hsorted : List.Pairwise
      (fun a c => GetWordLetterFrequency c (GetLetterFrequencies validAnswerSet words)
        ≤ GetWordLetterFrequency a (GetLetterFrequencies validAnswerSet words))
      (sortedKeys (GetLetterFrequencies validAnswerSet words) words) :=
    insertionSort_sorted_desc (GetLetterFrequencies validAnswerSet words)
      (buildCandidateToWord words).2
  rw [h1, tripleOuter_eq (GetLetterFrequencies validAnswerSet words) (tripleRep words)
    (sortedKeys (GetLetterFrequencies validAnswerSet words) words) 0 [] hsorted,
    processAll_result]

theorem toFinset_normalize (w : Word) :
    (NormalizeWordAsLetterSet w).toFinset = w.toFinset := by
  ext c
  rw [List.mem_toFinset, List.mem_toFinset, NormalizeWordAsLetterSet,
    (List.perm_insertionSort (fun a b => a ≤ b) w.dedup).mem_iff, List.mem_dedup]

theorem buildDict_spec :
    ∀ (words : List Word) (d0 : Word → Option Word) (ks0 : List Word),
      List.Pairwise
        (fun a c => NormalizeWordAsLetterSet a ≠ NormalizeWordAsLetterSet c) words →
      (∀ w ∈ words, d0 (NormalizeWordAsLetterSet w) = none) →
      (words.foldl buildStep (d0, ks0)).2 = ks0 ++ words.map NormalizeWordAsLetterSet ∧
      (∀ w ∈ words,
        (words.foldl buildStep (d0, ks0)).1 (NormalizeWordAsLetterSet w) = some w) ∧
      (∀ k, (∀ w ∈ words, NormalizeWordAsLetterSet w ≠ k) →
        (words.foldl buildStep (d0, ks0)).1 k = d0 k) := by
  intro words
  induction words with
  | nil =>
    intro d0 ks0 _ _
    exact ⟨by simp, by simp, fun k _ => rfl⟩
  | cons w rest ih =>
    intro d0 ks0 hp h0
    obtain ⟨hall, hrest⟩ := List.pairwise_cons.mp hp
    have hw0 : d0 (NormalizeWordAsLetterSet w) = none := h0 w (by simp)
    have hstep : buildStep (d0, ks0) w
        = ((fun k => if k = NormalizeWordAsLetterSet w then some w else d0 k),
           ks0 ++ [NormalizeWordAsLetterSet w]) := by
      simp [buildStep, hw0]
    have h01 : ∀ v ∈ rest,
        (fun k => if k = NormalizeWordAsLetterSet w then some w else d0 k)
          (NormalizeWordAsLetterSet v) = none := by
      intro v hv
      have hne : NormalizeWordAsLetterSet v ≠ NormalizeWordAsLetterSet w :=
        fun he => hall v hv he.symm
      show (if NormalizeWordAsLetterSet v = NormalizeWordAsLetterSet w then some w
          else d0 (NormalizeWordAsLetterSet v)) = none
      rw [if_neg hne]
      exact h0 v (by simp [hv])
    obtain ⟨ihks, ihval, ihother⟩ :=
      ih (fun k => if k = NormalizeWordAsLetterSet w then some w else d0 k)
        (ks0 ++ [NormalizeWordAsLetterSet w]) hrest h01
    have hfold : (w :: rest).foldl buildStep (d0, ks0)
        = rest.foldl buildStep
            ((fun k => if k = NormalizeWordAsLetterSet w then some w else d0 k),
             ks0 ++ [NormalizeWordAsLetterSet w]) := by
      rw [List.foldl_cons, hstep]
    refine ⟨?_, ?_, ?_⟩
    · rw [hfold, ihks, List.map_cons]
      simp
    · intro v hv
      rcases List.mem_cons.mp hv with h | h
      · subst h
        rw [hfold, ihother (NormalizeWordAsLetterSet v)
          (fun u hu he => hall u hu he.symm)]
        simp
      · rw [hfold]
        exact ihval v h
    · intro k hk
      rw [hfold, ihother k (fun u hu => hk u (by simp [hu]))]
      show (if k = NormalizeWordAsLetterSet w then some w else d0 k) = d0 k
      rw [if_neg (fun he => hk w (by simp) he.symm)]

theorem subperm_map (f : Word → Word) {l1 l2 : List Word} (h : List.Subperm l1 l2) :
    List.Subperm (l1.map f) (l2.map f) := by
  obtain ⟨l, hp, hs⟩ := h
  exact ⟨l.map f, hp.map f, hs.map f⟩

theorem tripleRep_eq (words : List Word)
    (HW : List.Pairwise
      (fun a c => NormalizeWordAsLetterSet a ≠ NormalizeWordAsLetterSet c) words) :
    ∀ w ∈ words, tripleRep words (NormalizeWordAsLetterSet w) = w := by
  obtain ⟨_, hval, _⟩ := buildDict_spec words (fun _ => none) [] HW (fun _ _ => rfl)
  intro w hw
  show ((buildCandidateToWord words).1 (NormalizeWordAsLetterSet w)).getD
    (NormalizeWordAsLetterSet w) = w
  rw [show (buildCandidateToWord words).1 (NormalizeWordAsLetterSet w) = some w
    from hval w hw]
  rfl

theorem keys_eq (words : List Word)
    (HW : List.Pairwise
      (fun a c => NormalizeWordAsLetterSet a ≠ NormalizeWordAsLetterSet c) words) :
    (buildCandidateToWord words).2 = words.map NormalizeWordAsLetterSet := by
  obtain ⟨hks, _, _⟩ := buildDict_spec words (fun _ => none) [] HW (fun _ _ => rfl)
  simpa using hks

theorem mapRep_keys (words : List Word)
    (HW : List.Pairwise
      (fun a c => NormalizeWordAsLetterSet a ≠ NormalizeWordAsLetterSet c) words) :
    ((buildCandidateToWord words).2).map (tripleRep words) = words := by
  rw [keys_eq words HW, List.map_map, Function.comp_def]
  rw [List.map_congr_left (fun w hw => tripleRep_eq words HW w hw)]
  exact List.map_id words

theorem rep_toFinset (words : List Word)
    (HW : List.Pairwise
      (fun a c => NormalizeWordAsLetterSet a ≠ NormalizeWordAsLetterSet c) words) :
    ∀ k ∈ (buildCandidateToWord words).2, (tripleRep words k).toFinset = k.toFinset := by
  intro k hk
  rw [keys_eq words HW] at hk
  obtain ⟨w, hw, rfl⟩ := List.mem_map.mp hk
  rw [tripleRep_eq words HW w hw, toFinset_normalize]

theorem cfTriple_outT (lf : Char → Nat) (rep : Word → Word) (s : Word × Word × Word)
    (h : ∀ w ∈ tripleList s, (rep w).toFinset = w.toFinset) :
    cfTriple lf (rep s.1, rep s.2.1, rep s.2.2) = cfTriple lf s := by
  rw [cfTriple_eq_wordsUnion, cfTriple_eq_wordsUnion]
  have h1 : tripleList (rep s.1, rep s.2.1, rep s.2.2) = (tripleList s).map rep := rfl
  rw [h1, wordsUnion_map_congr rep (tripleList s) h]

theorem tripleMem_filter_iff (lf : Char → Nat) (l : List Word) (M : Nat)
    (t : Word × Word × Word) :
    tripleMem t ((allTriples l).filter (fun s => decide (cfTriple lf s = M)))
      ↔ List.Subperm (tripleList t) l ∧ cfTriple lf t = M := by
  constructor
  · rintro ⟨s, hs, hperm⟩
    obtain ⟨hsmem, hscf⟩ := List.mem_filter.mp hs
    have hcfs : cfTriple lf s = M := of_decide_eq_true hscf
    refine ⟨⟨tripleList s, hperm, (mem_allTriples_iff s l).mp hsmem⟩, ?_⟩
    rw [← cfTriple_perm lf hperm]
    exact hcfs
  · rintro ⟨hsub, hcf⟩
    obtain ⟨s, hsmem, hperm⟩ := (exists_mem_allTriples_iff_subperm t l).mpr hsub
    refine ⟨s, List.mem_filter.mpr ⟨hsmem, ?_⟩, hperm⟩
    exact decide_eq_true (by rw [cfTriple_perm lf hperm]; exact hcf)

theorem sortedKeys_perm_normMap (validAnswerSet words : List Word)
    (HW : List.Pairwise
      (fun a c => NormalizeWordAsLetterSet a ≠ NormalizeWordAsLetterSet c) words) :
    List.Perm (sortedKeys (GetLetterFrequencies validAnswerSet words) words)
      (words.map NormalizeWordAsLetterSet) := by
  have h1 : List.Perm (sortedKeys (GetLetterFrequencies validAnswerSet words) words)
      (buildCandidateToWord words).2 := List.perm_insertionSort _ _
  rw [keys_eq words HW] at h1
  exact h1

theorem triple_max_keys_eq_words (validAnswerSet words : List Word)
    (HW : List.Pairwise
      (fun a c => NormalizeWordAsLetterSet a ≠ NormalizeWordAsLetterSet c) words) :
    maxCfFrom (cfTriple (GetLetterFrequencies validAnswerSet words)) 0
        (allTriples (sortedKeys (GetLetterFrequencies validAnswerSet words) words))
      = maxCfFrom (cfTriple (GetLetterFrequencies validAnswerSet words)) 0
        (allTriples words) := by
  have hSKperm : List.Perm (sortedKeys (GetLetterFrequencies validAnswerSet words) words)
      (buildCandidateToWord words).2 := List.perm_insertionSort _ _
  have hkperm := sortedKeys_perm_normMap validAnswerSet words HW
  apply maxCfFrom_congr
  · intro s hs
    have hsub : List.Sublist (tripleList s)
        (sortedKeys (GetLetterFrequencies validAnswerSet words) words) :=
      (mem_allTriples_iff s _).mp hs
    have hmem : ∀ w ∈ tripleList s, w ∈ (buildCandidateToWord words).2 :=
      fun w hw => hSKperm.mem_iff.mp (hsub.subset hw)
    have hcfout : cfTriple (GetLetterFrequencies validAnswerSet words)
        (tripleRep words s.1, tripleRep words s.2.1, tripleRep words s.2.2)
          = cfTriple (GetLetterFrequencies validAnswerSet words) s :=
      cfTriple_outT _ _ s (fun w hw => rep_toFinset words HW w (hmem w hw))
    have h1 : List.Subperm (tripleList s) (buildCandidateToWord words).2 :=
      (hSKperm.subperm_left).mp hsub.subperm
    have h2 := subperm_map (tripleRep words) h1
    rw [mapRep_keys words HW] at h2
    obtain ⟨u, hu, hup⟩ := (exists_mem_allTriples_iff_subperm
      (tripleRep words s.1, tripleRep words s.2.1, tripleRep words s.2.2) words).mpr h2
    exact ⟨u, hu, by rw [cfTriple_perm _ hup, hcfout]⟩
  · intro u hu
    have hsub : List.Sublist (tripleList u) words := (mem_allTriples_iff u _).mp hu
    have h1 := subperm_map NormalizeWordAsLetterSet hsub.subperm
    have h2 : List.Subperm ((tripleList u).map NormalizeWordAsLetterSet)
        (sortedKeys (GetLetterFrequencies validAnswerSet words) words) :=
      (hkperm.subperm_left).mpr h1
    obtain ⟨s, hsmem, hsp⟩ := (exists_mem_allTriples_iff_subperm
      (NormalizeWordAsLetterSet u.1, NormalizeWordAsLetterSet u.2.1,
        NormalizeWordAsLetterSet u.2.2) _).mpr h2
    refine ⟨s, hsmem, ?_⟩
    rw [cfTriple_perm _ hsp]
    exact cfTriple_outT _ _ u (fun w _ => toFinset_normalize w)

theorem tripleMem_pruned_iff_brute (validAnswerSet words : List Word)
    (HW : List.Pairwise
      (fun a c => NormalizeWordAsLetterSet a ≠ NormalizeWordAsLetterSet c) words)
    (t : Word × Word × Word) :
    tripleMem t (GetWordTriplesWithHighestLetterFrequencies validAnswerSet words)
      ↔ tripleMem t
          (bruteForceBestTriples (GetLetterFrequencies validAnswerSet words) words) := by
  have hSKperm : List.Perm (sortedKeys (GetLetterFrequencies validAnswerSet words) words)
      (buildCandidateToWord words).2 := List.perm_insertionSort _ _
  have hkperm := sortedKeys_perm_normMap validAnswerSet words HW
  have hM := triple_max_keys_eq_words validAnswerSet words HW
  rw [getWordTriples_eq_filter, bruteForceBestTriples, tripleMem_filter_iff]
  constructor
  · rintro ⟨q, hq, hqp⟩
    obtain ⟨s, hsf, hse⟩ := List.mem_map.mp hq
    obtain ⟨hsmem, hscf⟩ := List.mem_filter.mp hsf
    have hcfs := of_decide_eq_true hscf
    have hsub : List.Sublist (tripleList s)
        (sortedKeys (GetLetterFrequencies validAnswerSet words) words) :=
      (mem_allTriples_iff s _).mp hsmem
    have hmem : ∀ w ∈ tripleList s, w ∈ (buildCandidateToWord words).2 :=
      fun w hw => hSKperm.mem_iff.mp (hsub.subset hw)
    have hcfout : cfTriple (GetLetterFrequencies validAnswerSet words)
        (tripleRep words s.1, tripleRep words s.2.1, tripleRep words s.2.2)
          = cfTriple (GetLetterFrequencies validAnswerSet words) s :=
      cfTriple_outT _ _ s (fun w hw => rep_toFinset words HW w (hmem w hw))
    have h1 : List.Subperm (tripleList s) (buildCandidateToWord words).2 :=
      (hSKperm.subperm_left).mp hsub.subperm
    have h2 := subperm_map (tripleRep words) h1
    rw [mapRep_keys words HW] at h2
    have hqt : q = (tripleRep words s.1, tripleRep words s.2.1, tripleRep words s.2.2) :=
      hse.symm
    have hsubq : List.Subperm (tripleList q) words := by
      rw [hqt]
      exact h2
    refine ⟨(hqp.subperm_right).mp hsubq, ?_⟩
    have hcfq : cfTriple (GetLetterFrequencies validAnswerSet words) q
        = cfTriple (GetLetterFrequencies validAnswerSet words) t := cfTriple_perm _ hqp
    rw [← hcfq, hqt, hcfout, hcfs, hM]
  · rintro ⟨hsub, hcf⟩
    have hmemt : ∀ w ∈ tripleList t, w ∈ words := by
      obtain ⟨l2, hlp, hls⟩ := hsub
      intro w hw
      exact hls.subset (hlp.mem_iff.mpr hw)
    have h1 := subperm_map NormalizeWordAsLetterSet hsub
    have h2 : List.Subperm ((tripleList t).map NormalizeWordAsLetterSet)
        (sortedKeys (GetLetterFrequencies validAnswerSet words) words) :=
      (hkperm.subperm_left).mpr h1
    obtain ⟨s, hsmem, hsp⟩ := (exists_mem_allTriples_iff_subperm
      (NormalizeWordAsLetterSet t.1, NormalizeWordAsLetterSet t.2.1,
        NormalizeWordAsLetterSet t.2.2) _).mpr h2
    have hcfN : cfTriple (GetLetterFrequencies validAnswerSet words)
        (NormalizeWordAsLetterSet t.1, NormalizeWordAsLetterSet t.2.1,
          NormalizeWordAsLetterSet t.2.2)
        = cfTriple (GetLetterFrequencies validAnswerSet words) t :=
      cfTriple_outT _ _ t (fun w _ => toFinset_normalize w)
    have hcfs : cfTriple (GetLetterFrequencies validAnswerSet words) s
        = maxCfFrom (cfTriple (GetLetterFrequencies validAnswerSet words)) 0
            (allTriples (sortedKeys (GetLetterFrequencies validAnswerSet words) words)) := by
      rw [cfTriple_perm _ hsp, hcfN, hcf, hM]
    refine ⟨(tripleRep words s.1, tripleRep words s.2.1, tripleRep words s.2.2),
      List.mem_map.mpr ⟨s, List.mem_filter.mpr ⟨hsmem, decide_eq_true hcfs⟩, rfl⟩, ?_⟩
    have hlist : tripleList (tripleRep words s.1, tripleRep words s.2.1,
        tripleRep words s.2.2) = (tripleList s).map (tripleRep words) := rfl
    have hperm2 : List.Perm ((tripleList s).map (tripleRep words))
        (((tripleList t).map NormalizeWordAsLetterSet).map (tripleRep words)) :=
      hsp.map (tripleRep words)
    have hmapid : ((tripleList t).map NormalizeWordAsLetterSet).map (tripleRep words)
        = tripleList t := by
      rw [List.map_map, Function.comp_def,
        List.map_congr_left (fun w hw => tripleRep_eq words HW w (hmemt w hw))]
      exact List.map_id _
    rw [hlist]
    rw [hmapid] at hperm2
    exact hperm2

theorem pruned_triples_score (validAnswerSet words : List Word)
    (HW : List.Pairwise
      (fun a c => NormalizeWordAsLetterSet a ≠ NormalizeWordAsLetterSet c) words) :
    ∀ u ∈ GetWordTriplesWithHighestLetterFrequencies validAnswerSet words,
      cfTriple (GetLetterFrequencies validAnswerSet words) u
        = maxCfFrom (cfTriple (GetLetterFrequencies validAnswerSet words)) 0
            (allTriples words) := by
  intro u hu
  have hSKperm : List.Perm (sortedKeys (GetLetterFrequencies validAnswerSet words) words)
      (buildCandidateToWord words).2 := List.perm_insertionSort _ _
  rw [getWordTriples_eq_filter] at hu
  obtain ⟨s, hsf, hse⟩ := List.mem_map.mp hu
  obtain ⟨hsmem, hscf⟩ := List.mem_filter.mp hsf
  have hcfs := of_decide_eq_true hscf
  have hsub : List.Sublist (tripleList s)
      (sortedKeys (GetLetterFrequencies validAnswerSet words) words) :=
    (mem_allTriples_iff s _).mp hsmem
  have hmem : ∀ w ∈ tripleList s, w ∈ (buildCandidateToWord words).2 :=
    fun w hw => hSKperm.mem_iff.mp (hsub.subset hw)
  have hcfout : cfTriple (GetLetterFrequencies validAnswerSet words)
      (tripleRep words s.1, tripleRep words s.2.1, tripleRep words s.2.2)
        = cfTriple (GetLetterFrequencies validAnswerSet words) s :=
    cfTriple_outT _ _ s (fun w hw => rep_toFinset words HW w (hmem w hw))
  rw [← hse, hcfout, hcfs]
  exact triple_max_keys_eq_words validAnswerSet words HW

/-- Claim C3 counterexample: on the word list `[AB, BA, ABB]`, whose three
words all share the letter set `{A,B}`, the anagram-reduced triple search
collapses everything to one canonical key and returns no triple at all, while
the unpruned brute-force enumeration returns the (unique, hence optimal)
triple of the three words; the two searches do not return the same set of
optimal tuples. -/
theorem claim_C3_counterexample :
    GetWordTriplesWithHighestLetterFrequencies
        [['A','B'], ['B','A'], ['A','B','B']] [['A','B'], ['B','A'], ['A','B','B']] = [] ∧
    tripleMem (['A','B'], ['B','A'], ['A','B','B'])
      (bruteForceBestTriples
        (GetLetterFrequencies [['A','B'], ['B','A'], ['A','B','B']]
          [['A','B'], ['B','A'], ['A','B','B']])
        [['A','B'], ['B','A'], ['A','B','B']]) ∧
    ¬ tripleMem (['A','B'], ['B','A'], ['A','B','B'])
      (GetWordTriplesWithHighestLetterFrequencies
        [['A','B'], ['B','A'], ['A','B','B']] [['A','B'], ['B','A'], ['A','B','B']]) := by
  refine ⟨by decide, by decide, by decide⟩

/-- Claim C3 as amended: for every word list, the pruned pair search returns
exactly the brute-force set of maximum-combined-score pairs (as unordered
word pairs, with every returned pair attaining the brute-force maximum), and
the pruning break never discards a pair that could tie or exceed the best;
the pruned, anagram-reduced triple search satisfies the same equivalence for
every word list in which no two words have the same letter set (anagram
reduction makes the searches differ on lists containing anagrams, see the
counterexample). -/
theorem claim_C3_pruned_search_matches_bruteforce :
    (∀ (validAnswerSet words : List Word) (p : Word × Word),
      pairMem p (GetWordPairsWithHighestLetterFrequencies validAnswerSet words)
        ↔ pairMem p (bruteForceBestPairs (GetLetterFrequencies validAnswerSet words) words)) ∧
    (∀ validAnswerSet words : List Word,
      ∀ q ∈ GetWordPairsWithHighestLetterFrequencies validAnswerSet words,
        cfPair (GetLetterFrequencies validAnswerSet words) q
          = maxCfFrom (cfPair (GetLetterFrequencies validAnswerSet words)) 0
              (allPairs words)) ∧
    (∀ validAnswerSet words : List Word,
      List.Pairwise
        (fun a c => NormalizeWordAsLetterSet a ≠ NormalizeWordAsLetterSet c) words →
      (∀ t : Word × Word × Word,
        tripleMem t (GetWordTriplesWithHighestLetterFrequencies validAnswerSet words)
          ↔ tripleMem t
              (bruteForceBestTriples (GetLetterFrequencies validAnswerSet words) words)) ∧
      (∀ u ∈ GetWordTriplesWithHighestLetterFrequencies validAnswerSet words,
        cfTriple (GetLetterFrequencies validAnswerSet words) u
          = maxCfFrom (cfTriple (GetLetterFrequencies validAnswerSet words)) 0
              (allTriples words))) :=
  ⟨pairMem_pruned_iff_brute, pruned_pairs_score,
   fun validAnswerSet words HW =>
     ⟨tripleMem_pruned_iff_brute validAnswerSet words HW,
      pruned_triples_score validAnswerSet words HW⟩⟩

/-- Witness for C3: on the anagram-free word list `[A, B, CD]`, the triple
search and the brute-force search agree on the triple `(A, B, CD)`. -/
theorem claim_C3_pruned_search_matches_bruteforce_witness :
    List.Pairwise (fun a c => NormalizeWordAsLetterSet a ≠ NormalizeWordAsLetterSet c)
      [['A'], ['B'], ['C','D']] ∧
    (tripleMem (['A'], ['B'], ['C','D'])
        (GetWordTriplesWithHighestLetterFrequencies [['A'], ['B'], ['C','D']]
          [['A'], ['B'], ['C','D']])
      ↔ tripleMem (['A'], ['B'], ['C','D'])
          (bruteForceBestTriples
            (GetLetterFrequencies [['A'], ['B'], ['C','D']] [['A'], ['B'], ['C','D']])
            [['A'], ['B'], ['C','D']])) :=
  ⟨by decide,
   (claim_C3_pruned_search_matches_bruteforce.2.2 [['A'], ['B'], ['C','D']]
      [['A'], ['B'], ['C','D']] (by decide)).1 (['A'], ['B'], ['C','D'])⟩
